import Mathlib

/-!
Verification of the L1 Email Reviewer decision and scoring engine.

The repository's scaffolding (`src/constants.py`, `src/config.py`,
`src/logging.py`, `src/models.py`) is embedded directly.  The engine core
(score aggregator, decision router, list resolver, policy evaluator) is not
part of the scaffolding sources, so those operations are modelled from the
specification, as marked on each definition.

Floating point scores and weights are modelled as rational numbers.
-/

namespace L1

/-! ## Enumerations, from src/constants.py -/

/-- Embeds `DecisionType` (src/constants.py): email review decision types. -/
inductive DecisionType where
  | auto_release
  | approval_required
  | escalate
deriving DecidableEq, Repr

/-- Embeds `RiskLevel` (src/constants.py): risk level classifications. -/
inductive RiskLevel where
  | low
  | medium
  | high
deriving DecidableEq, Repr

/-- Embeds `ValidationComponent` (src/constants.py): the four validation
component names. -/
inductive ValidationComponent where
  | domain_validation
  | content_analysis
  | sender_check
  | rules_evaluation
deriving DecidableEq, Repr

/-- Embeds `WhitelistType` (src/constants.py): whitelist/blacklist entry
types. -/
inductive WhitelistType where
  | domain
  | email
  | ip
deriving DecidableEq, Repr

/-- The string value of each `ValidationComponent` member
(src/constants.py). -/
def ValidationComponent.value : ValidationComponent → String
  | .domain_validation => "domain_validation"
  | .content_analysis => "content_analysis"
  | .sender_check => "sender_check"
  | .rules_evaluation => "rules_evaluation"

/-- Embeds `DEFAULT_SCORING_WEIGHTS` (src/constants.py), a dict from
component name to weight, in insertion order. -/
def DEFAULT_SCORING_WEIGHTS : List (String × ℚ) :=
  [("domain_validation", 30/100),
   ("content_analysis", 35/100),
   ("sender_check", 25/100),
   ("rules_evaluation", 10/100)]

/-! ## Thresholds configuration, from src/config.py -/

/-- Embeds the value fields of `ThresholdsConfig` (src/config.py). -/
structure ThresholdsConfig where
  auto_release_min : ℚ
  approval_min : ℚ
  escalate_max : ℚ
  hold_extension_default : ℤ
  hold_extension_high_risk : ℤ
deriving DecidableEq, Repr

/-- Embeds `ThresholdsConfig.validate_confidence_range` (src/config.py):
raises `ValueError` unless `0 <= v <= 1`, else returns `v` unchanged. -/
def validate_confidence_range (v : ℚ) : Except String ℚ :=
  if 0 ≤ v ∧ v ≤ 1 then Except.ok v
  else Except.error "Confidence threshold must be between 0 and 1"

/-- Embeds loading a `ThresholdsConfig` (src/config.py): each of the three
confidence thresholds is passed through `validate_confidence_range`; no other
validation is performed on them. -/
def thresholds_load (auto_release_min approval_min escalate_max : ℚ)
    (hold_extension_default hold_extension_high_risk : ℤ) :
    Except String ThresholdsConfig :=
  match validate_confidence_range auto_release_min,
      validate_confidence_range approval_min,
      validate_confidence_range escalate_max with
  | Except.ok a, Except.ok p, Except.ok e =>
      Except.ok ⟨a, p, e, hold_extension_default, hold_extension_high_risk⟩
  | Except.error m, _, _ => Except.error m
  | _, Except.error m, _ => Except.error m
  | _, _, Except.error m => Except.error m

/-- The default `ThresholdsConfig` field values (src/config.py):
0.85, 0.60, 0.60, 7, 30. -/
def thresholds_defaults : ThresholdsConfig :=
  ⟨85/100, 60/100, 60/100, 7, 30⟩

/-! ## Score aggregator, modelled from the spec -/

/-- A `ScoringWeights` assignment: a weight for each of the four required
components.  The `details` mappings of `ValidationInput` play no role in
scoring and are omitted. -/
def Weights : Type := ValidationComponent → ℚ

/-- The sum of the four weights. -/
def wsum (w : Weights) : ℚ :=
  w .domain_validation + w .content_analysis + w .sender_check +
    w .rules_evaluation

/-- Modelled from the spec: the `ScoringWeights` invariant of §3 — weights
are non-negative and sum to 1.0 within a tolerance of 1e-6. -/
def weightsValid (w : Weights) : Prop :=
  0 ≤ w .domain_validation ∧ 0 ≤ w .content_analysis ∧
    0 ≤ w .sender_check ∧ 0 ≤ w .rules_evaluation ∧
    |wsum w - 1| ≤ 1/1000000

instance (w : Weights) : Decidable (weightsValid w) := by
  unfold weightsValid; infer_instance

/-- A `ValidationInput`: for each component, the score if that component is
present.  A `none` entry models a missing component. -/
def ValidationInput : Type := ValidationComponent → Option ℚ

/-- The `ValidationInput` in which all four components are present, with
the given scores. -/
def mkInput (d c s r : ℚ) : ValidationInput := fun comp =>
  match comp with
  | .domain_validation => some d
  | .content_analysis => some c
  | .sender_check => some s
  | .rules_evaluation => some r

/-- The pure weighted sum `Σ weight[c] * score[c]` over the four
components. -/
def overall (w : Weights) (d c s r : ℚ) : ℚ :=
  w .domain_validation * d + w .content_analysis * c +
    w .sender_check * s + w .rules_evaluation * r

/-- Modelled from the spec: the Score Aggregator of §4.3, which is not in
the scaffolding sources.  `aggregate` fails with a `ScoringError`
(embedded as the `Except.error` branch, after `ConfidenceScoringError` of
src/exceptions.py) if any required component is absent, any score is
outside `[0,1]`, or the weights violate the `ScoringWeights` invariant;
otherwise it returns the weighted sum. -/
def aggregate (input : ValidationInput) (w : Weights) : Except String ℚ :=
  match input .domain_validation, input .content_analysis,
      input .sender_check, input .rules_evaluation with
  | some d, some c, some s, some r =>
      if (0 ≤ d ∧ d ≤ 1) ∧ (0 ≤ c ∧ c ≤ 1) ∧ (0 ≤ s ∧ s ≤ 1) ∧
          (0 ≤ r ∧ r ≤ 1) then
        if weightsValid w then Except.ok (overall w d c s r)
        else Except.error "ScoringError: invalid weights"
      else Except.error "ScoringError: component score out of range"
  | _, _, _, _ => Except.error "ScoringError: missing required component"

/-! ## List resolver and decision router, modelled from the spec -/

/-- The `ListVerdict` of §4.1: `allow`, `deny`, or `none`. -/
inductive ListVerdict where
  | allow
  | deny
  | none
deriving DecidableEq, Repr

/-- A snapshot of the whitelist and blacklist, each a set of
`(entry_type, value)` keys. -/
structure ListSnapshot where
  whitelist : List (WhitelistType × String)
  blacklist : List (WhitelistType × String)
deriving DecidableEq, Repr

/-- Modelled from the spec: the List Resolver of §4.1, which is not in the
scaffolding sources.  Blacklist lookups (email, domain, ip) run first and
short-circuit; then whitelist lookups; otherwise `none`. -/
def resolve (snap : ListSnapshot) (sender_email sender_domain sender_ip :
    String) : ListVerdict :=
  if (WhitelistType.email, sender_email) ∈ snap.blacklist then .deny
  else if (WhitelistType.domain, sender_domain) ∈ snap.blacklist then .deny
  else if (WhitelistType.ip, sender_ip) ∈ snap.blacklist then .deny
  else if (WhitelistType.email, sender_email) ∈ snap.whitelist then .allow
  else if (WhitelistType.domain, sender_domain) ∈ snap.whitelist then .allow
  else if (WhitelistType.ip, sender_ip) ∈ snap.whitelist then .allow
  else .none

/-- A policy action of §4.2: `release`, `escalate`, or `require_approval`. -/
inductive PolicyAction where
  | release
  | escalate
  | require_approval
deriving DecidableEq, Repr

/-- The mapping of a policy action to the final decision type (§4.2). -/
def PolicyAction.toDecisionType : PolicyAction → DecisionType
  | .release => .auto_release
  | .escalate => .escalate
  | .require_approval => .approval_required

/-- A `PolicyOutcome` of §4.2: the matched rule with its action and
description (the router's reason cites rule_id and description). -/
structure PolicyOutcome where
  rule_id : String
  action : PolicyAction
  description : String
deriving DecidableEq, Repr

/-- The `Decision` record of §3. -/
structure Decision where
  decision_type : DecisionType
  risk_level : RiskLevel
  overall_score : ℚ
  reason : String
  matched_policy : Option String
  list_verdict : ListVerdict
deriving DecidableEq, Repr

/-- Modelled from the spec: the Decision Router of §4.5, which is not in
the scaffolding sources.  Precedence, highest first: blacklist deny →
escalate; matched policy → its action; whitelist allow → auto_release;
otherwise score thresholds. -/
def route (overall_score : ℚ) (risk_level : RiskLevel)
    (list_verdict : ListVerdict) (policy_outcome : Option PolicyOutcome)
    (t : ThresholdsConfig) : Decision :=
  match list_verdict with
  | .deny =>
      ⟨.escalate, risk_level, overall_score, "blacklisted sender",
        Option.none, .deny⟩
  | lv =>
      match policy_outcome with
      | some p =>
          ⟨p.action.toDecisionType, risk_level, overall_score,
            p.rule_id ++ ": " ++ p.description, some p.rule_id, lv⟩
      | Option.none =>
          match lv with
          | .allow =>
              ⟨.auto_release, risk_level, overall_score,
                "whitelisted sender", Option.none, .allow⟩
          | _ =>
              if t.auto_release_min ≤ overall_score then
                ⟨.auto_release, risk_level, overall_score,
                  "score at or above auto_release_min", Option.none, lv⟩
              else if t.approval_min ≤ overall_score then
                ⟨.approval_required, risk_level, overall_score,
                  "score at or above approval_min", Option.none, lv⟩
              else
                ⟨.escalate, risk_level, overall_score,
                  "score below approval_min", Option.none, lv⟩

/-! ## Policy evaluator, modelled from the spec -/

/-- The candidate email attributes a policy condition may inspect (§4.2):
sender, subject, body, attachment list, current time, recent volume. -/
structure Candidate where
  sender : String
  subject : String
  body : String
  attachments : List String
  current_time : ℤ
  recent_volume : ℕ

/-- A policy record (§3 and src/models.py `Policy`): unique rule_id,
priority (lower evaluates first), condition predicate, action, enabled
flag.  The structured condition is modelled as its predicate on the
candidate attributes. -/
structure Policy where
  rule_id : String
  name : String
  priority : ℤ
  condition : Candidate → Bool
  action : PolicyAction
  description : String
  enabled : Bool

/-- The evaluation-order relation on policies: ascending priority, ties
broken by rule_id ascending. -/
def policyLe (a b : Policy) : Prop :=
  a.priority < b.priority ∨ (a.priority = b.priority ∧ a.rule_id ≤ b.rule_id)

/-- The strict evaluation-order relation on policies. -/
def policyLt (a b : Policy) : Prop :=
  a.priority < b.priority ∨ (a.priority = b.priority ∧ a.rule_id < b.rule_id)

instance : DecidableRel policyLe := by
  unfold policyLe; infer_instance

instance : IsTotal Policy policyLe := by
  constructor
  intro a b
  unfold policyLe
  rcases lt_trichotomy a.priority b.priority with h | h | h
  · exact Or.inl (Or.inl h)
  · exact (le_total a.rule_id b.rule_id).imp (fun hr => Or.inr ⟨h, hr⟩)
      (fun hr => Or.inr ⟨h.symm, hr⟩)
  · exact Or.inr (Or.inl h)

instance : IsTrans Policy policyLe := by
  constructor
  intro a b c hab hbc
  unfold policyLe at *
  rcases hab with h1 | ⟨h1, h1r⟩ <;> rcases hbc with h2 | ⟨h2, h2r⟩
  · exact Or.inl (h1.trans h2)
  · exact Or.inl (h2 ▸ h1)
  · exact Or.inl (h1 ▸ h2)
  · exact Or.inr ⟨h1.trans h2, h1r.trans h2r⟩

/-- The order in which the evaluator considers policies: the enabled ones,
sorted ascending by `(priority, rule_id)`. -/
def evaluationOrder (ps : List Policy) : List Policy :=
  List.insertionSort policyLe (ps.filter (fun p => p.enabled))

/-- The outcome produced from a matched policy. -/
def outcomeOf (p : Policy) : PolicyOutcome :=
  ⟨p.rule_id, p.action, p.description⟩

/-- Modelled from the spec: the Policy Evaluator of §4.2, which is not in
the scaffolding sources.  Considers enabled policies in ascending
`(priority, rule_id)` order and returns the first match's outcome;
`none` when no enabled policy matches. -/
def evaluate (ps : List Policy) (cand : Candidate) : Option PolicyOutcome :=
  ((evaluationOrder ps).find? (fun p => p.condition cand)).map outcomeOf

/-! ## List store, from the schema in src/models.py -/

/-- A whitelist or blacklist row (src/models.py `Whitelist` / `Blacklist`):
entry_type, value, added_by, reason. -/
structure ListEntry where
  entry_type : WhitelistType
  value : String
  added_by : String
  reason : String
deriving DecidableEq, Repr

/-- The key constrained unique by `uq_whitelist_type_value` and
`uq_blacklist_type_value` (src/models.py). -/
def entryKey (e : ListEntry) : WhitelistType × String :=
  (e.entry_type, e.value)

/-- The list store state: the rows of the `whitelists` and `blacklists`
tables. -/
structure ListStore where
  whitelists : List ListEntry
  blacklists : List ListEntry

/-- A store transition: an insert succeeds only when no row of the same
table already has the same `(entry_type, value)` key — the unique
constraints of src/models.py — and a delete removes a key from one table.
The two tables carry no cross-table constraint. -/
inductive StoreStep : ListStore → ListStore → Prop where
  | addWhite (s : ListStore) (e : ListEntry)
      (h : entryKey e ∉ s.whitelists.map entryKey) :
      StoreStep s ⟨e :: s.whitelists, s.blacklists⟩
  | addBlack (s : ListStore) (e : ListEntry)
      (h : entryKey e ∉ s.blacklists.map entryKey) :
      StoreStep s ⟨s.whitelists, e :: s.blacklists⟩
  | removeWhite (s : ListStore) (k : WhitelistType × String) :
      StoreStep s
        ⟨s.whitelists.filter (fun x => decide (entryKey x ≠ k)),
          s.blacklists⟩
  | removeBlack (s : ListStore) (k : WhitelistType × String) :
      StoreStep s
        ⟨s.whitelists,
          s.blacklists.filter (fun x => decide (entryKey x ≠ k))⟩

/-- Reachability from the empty store through store transitions. -/
inductive StoreReachable : ListStore → Prop where
  | init : StoreReachable ⟨[], []⟩
  | step {s s' : ListStore} : StoreReachable s → StoreStep s s' →
      StoreReachable s'

/-! ## Log censoring, from src/logging.py -/

/-- Embeds `sensitive_keys` (src/logging.py `censor_sensitive_data`). -/
def sensitive_keys : List String :=
  ["password", "api_key", "token", "secret", "auth"]

/-- Character-level lowercase, embedding Python's `str.lower` for the
key names involved. -/
def strToLower (s : String) : String :=
  ⟨s.data.map Char.toLower⟩

/-- `leadsWith sub l`: `sub` is an initial run of `l` (character lists). -/
def leadsWith : List Char → List Char → Bool
  | [], _ => true
  | _ :: _, [] => false
  | a :: s, b :: t => (a == b) && leadsWith s t

/-- `hasSub sub l`: `sub` occurs contiguously inside `l`, embedding
Python's `sub in l` on strings. -/
def hasSub (sub : List Char) : List Char → Bool
  | [] => leadsWith sub []
  | b :: t => leadsWith sub (b :: t) || hasSub sub t

/-- Whether a log key is sensitive: some sensitive key is a substring of
its lowercased name (src/logging.py). -/
def isSensitiveKey (k : String) : Bool :=
  sensitive_keys.any (fun s => hasSub s.data (strToLower k).data)

/-- Embeds `censor_sensitive_data` (src/logging.py): every entry whose
lowercased key contains a sensitive substring has its value replaced by
`"***REDACTED***"`; the event dict is modelled as an association list. -/
def censor_sensitive_data (event_dict : List (String × String)) :
    List (String × String) :=
  event_dict.map (fun kv =>
    if isSensitiveKey kv.1 then (kv.1, "***REDACTED***") else kv)

/-! ## Allowed IP ranges, from src/config.py -/

/-- Embeds Python's `str.split(sep)` for a one-character separator:
splitting the empty string yields one empty piece. -/
def pySplit (sep : Char) : List Char → List (List Char)
  | [] => [[]]
  | c :: t =>
      match pySplit sep t with
      | [] => [[]]
      | cur :: rest =>
          if c = sep then [] :: cur :: rest else (c :: cur) :: rest

/-- Removes trailing whitespace characters, embedding the right half of
Python's `str.strip`. -/
def stripEnd : List Char → List Char
  | [] => []
  | c :: t =>
      match stripEnd t with
      | [] => if c.isWhitespace then [] else [c]
      | x :: r => c :: x :: r

/-- Embeds Python's `str.strip()`: drop whitespace from both ends. -/
def pyStrip (l : List Char) : List Char :=
  (stripEnd l).dropWhile Char.isWhitespace

/-- Embeds `SecurityConfig.allowed_ip_list` (src/config.py): the empty
string (falsy) yields `[]`; otherwise the string is split on commas and
each piece stripped. -/
def allowed_ip_list (allowed_ip_ranges : String) : List String :=
  if allowed_ip_ranges = "" then []
  else (pySplit ',' allowed_ip_ranges.data).map (fun l => ⟨pyStrip l⟩)

/-- Joining pieces with a separator character: the inverse reading of
`pySplit`. -/
def joinSep (sep : Char) : List (List Char) → List Char
  | [] => []
  | [x] => x
  | x :: y :: r => x ++ sep :: joinSep sep (y :: r)

/-- The default weight of each component, as a function on
`ValidationComponent` (the values of `DEFAULT_SCORING_WEIGHTS`). -/
def defaultWeight : Weights
  | .domain_validation => 30/100
  | .content_analysis => 35/100
  | .sender_check => 25/100
  | .rules_evaluation => 10/100

/-! ## Theorems -/

/-- Claim C7: the default scoring weights assign a weight to exactly the
four required components — domain_validation 0.30, content_analysis 0.35,
sender_check 0.25, rules_evaluation 0.10 — every weight is non-negative,
and the weights sum to 1.0 within a tolerance of 1e-6. -/
theorem default_scoring_weights_valid :
    DEFAULT_SCORING_WEIGHTS.map Prod.fst =
      [ValidationComponent.domain_validation.value,
       ValidationComponent.content_analysis.value,
       ValidationComponent.sender_check.value,
       ValidationComponent.rules_evaluation.value] ∧
    (∀ comp : ValidationComponent,
      DEFAULT_SCORING_WEIGHTS.lookup comp.value = some (defaultWeight comp)) ∧
    defaultWeight .domain_validation = 30/100 ∧
    defaultWeight .content_analysis = 35/100 ∧
    defaultWeight .sender_check = 25/100 ∧
    defaultWeight .rules_evaluation = 10/100 ∧
    (∀ kv ∈ DEFAULT_SCORING_WEIGHTS, 0 ≤ kv.2) ∧
    |(DEFAULT_SCORING_WEIGHTS.map Prod.snd).sum - 1| ≤ 1/1000000 := by
  refine ⟨rfl, ?_, rfl, rfl, rfl, rfl, ?_, ?_⟩
  · intro comp; cases comp <;> rfl
  · intro kv hkv
    simp only [DEFAULT_SCORING_WEIGHTS, List.mem_cons, List.not_mem_nil,
      or_false] at hkv
    rcases hkv with rfl | rfl | rfl | rfl <;> norm_num
  · simp only [DEFAULT_SCORING_WEIGHTS, List.map_cons, List.map_nil,
      List.sum_cons, List.sum_nil]
    norm_num

/-- Witness for claim C7: the domain_validation entry is present with
weight 0.30, and its weight is non-negative. -/
theorem default_scoring_weights_valid_witness :
    ("domain_validation", (30:ℚ)/100) ∈ DEFAULT_SCORING_WEIGHTS ∧
    (0:ℚ) ≤ 30/100 := by
  have hmem : ("domain_validation", (30:ℚ)/100) ∈ DEFAULT_SCORING_WEIGHTS :=
    List.mem_cons_self _ _
  exact ⟨hmem, default_scoring_weights_valid.2.2.2.2.2.2.1 _ hmem⟩

/-- Claim C6: `validate_confidence_range` rejects a threshold exactly when
it lies outside `[0,1]` and returns it unchanged otherwise; loading a
`ThresholdsConfig` succeeds exactly when all three confidence thresholds
are in range; the defaults are 0.85, 0.60 and 0.60. -/
theorem validate_confidence_range_spec :
    (∀ v : ℚ,
      (0 ≤ v ∧ v ≤ 1 → validate_confidence_range v = Except.ok v) ∧
      (¬(0 ≤ v ∧ v ≤ 1) →
        ∃ m, validate_confidence_range v = Except.error m)) ∧
    (∀ a p e : ℚ, ∀ hd hr : ℤ,
      (∃ t, thresholds_load a p e hd hr = Except.ok t) ↔
        (0 ≤ a ∧ a ≤ 1) ∧ (0 ≤ p ∧ p ≤ 1) ∧ (0 ≤ e ∧ e ≤ 1)) ∧
    thresholds_defaults.auto_release_min = 85/100 ∧
    thresholds_defaults.approval_min = 60/100 ∧
    thresholds_defaults.escalate_max = 60/100 := by
  have hval : ∀ v : ℚ, validate_confidence_range v =
      if 0 ≤ v ∧ v ≤ 1 then Except.ok v
      else Except.error "Confidence threshold must be between 0 and 1" :=
    fun v => rfl
  refine ⟨?_, ?_, rfl, rfl, rfl⟩
  · intro v
    constructor
    · intro h; rw [hval, if_pos h]
    · intro h; exact ⟨_, by rw [hval, if_neg h]⟩
  · intro a p e hd hr
    constructor
    · rintro ⟨t, ht⟩
      unfold thresholds_load at ht
      rw [hval a, hval p, hval e] at ht
      by_cases ha : 0 ≤ a ∧ a ≤ 1
      · by_cases hp : 0 ≤ p ∧ p ≤ 1
        · by_cases he : 0 ≤ e ∧ e ≤ 1
          · exact ⟨ha, hp, he⟩
          · rw [if_pos ha, if_pos hp, if_neg he] at ht
            exact absurd ht (by simp)
        · rw [if_pos ha, if_neg hp] at ht
          by_cases he : 0 ≤ e ∧ e ≤ 1 <;>
            [rw [if_pos he] at ht; rw [if_neg he] at ht] <;>
            exact absurd ht (by simp)
      · rw [if_neg ha] at ht
        by_cases hp : 0 ≤ p ∧ p ≤ 1 <;>
          [rw [if_pos hp] at ht; rw [if_neg hp] at ht] <;>
          by_cases he : 0 ≤ e ∧ e ≤ 1 <;>
          first
          | (rw [if_pos he] at ht; exact absurd ht (by simp))
          | (rw [if_neg he] at ht; exact absurd ht (by simp))
    · rintro ⟨ha, hp, he⟩
      refine ⟨⟨a, p, e, hd, hr⟩, ?_⟩
      unfold thresholds_load
      rw [hval a, hval p, hval e, if_pos ha, if_pos hp, if_pos he]

/-- Witness for claim C6 at concrete inputs: 0.5 is accepted unchanged and
1.5 is rejected. -/
theorem validate_confidence_range_spec_witness :
    validate_confidence_range (1/2) = Except.ok (1/2) ∧
    (∃ m, validate_confidence_range (3/2) = Except.error m) ∧
    ((0:ℚ) ≤ 1/2 ∧ (1:ℚ)/2 ≤ 1) := by
  refine ⟨?_, ?_, by norm_num⟩
  · exact (validate_confidence_range_spec.1 (1/2)).1 (by norm_num)
  · exact (validate_confidence_range_spec.1 (3/2)).2 (by norm_num)

/-- Claim C4 (code divergence): configuration loading accepts a thresholds
configuration in which `escalate_max ≤ approval_min` fails — each value is
only checked to lie in `[0,1]`, so the relative ordering
`escalate_max ≤ approval_min ≤ auto_release_min` is not validated at load
time. -/
theorem thresholds_ordering_not_validated :
    thresholds_load (85/100) (50/100) (70/100) 7 30 =
      Except.ok ⟨85/100, 50/100, 70/100, 7, 30⟩ ∧
    ¬((70:ℚ)/100 ≤ 50/100) := by
  constructor
  · unfold thresholds_load validate_confidence_range
    norm_num
  · norm_num

/-- Claim C1: whenever the list verdict is deny, the router produces an
escalate decision whose reason cites the blacklist, for every score, risk
level, policy outcome and thresholds; and the resolver returns deny for
any sender whose address is blacklisted, whatever the whitelist contains —
in particular when the sender's domain is whitelisted. -/
theorem deny_always_escalates (score : ℚ) (risk : RiskLevel)
    (pol : Option PolicyOutcome) (t : ThresholdsConfig)
    (lv : ListVerdict) (hlv : lv = ListVerdict.deny) :
    ((route score risk lv pol t).decision_type = DecisionType.escalate ∧
      (route score risk lv pol t).reason = "blacklisted sender") ∧
    ∀ (snap : ListSnapshot) (se sd si : String),
      (WhitelistType.email, se) ∈ snap.blacklist →
        resolve snap se sd si = ListVerdict.deny := by
  subst hlv
  refine ⟨⟨rfl, rfl⟩, ?_⟩
  intro snap se sd si h
  unfold resolve
  rw [if_pos h]

/-- Witness for claim C1: a sender with overall score 0.99, a whitelisted
domain, a matching release policy, and a blacklisted address still routes
to escalate with the blacklist reason. -/
theorem deny_always_escalates_witness :
    ((route (99/100) RiskLevel.low ListVerdict.deny
        (some ⟨"r1", PolicyAction.release, "always release"⟩)
        thresholds_defaults).decision_type = DecisionType.escalate ∧
      (route (99/100) RiskLevel.low ListVerdict.deny
        (some ⟨"r1", PolicyAction.release, "always release"⟩)
        thresholds_defaults).reason = "blacklisted sender") ∧
    resolve
      ⟨[(WhitelistType.domain, "good.com")],
        [(WhitelistType.email, "evil@good.com")]⟩
      "evil@good.com" "good.com" "10.0.0.1" = ListVerdict.deny := by
  have h := deny_always_escalates (99/100) RiskLevel.low
    (some ⟨"r1", PolicyAction.release, "always release"⟩)
    thresholds_defaults ListVerdict.deny rfl
  exact ⟨h.1, h.2 _ "evil@good.com" "good.com" "10.0.0.1" (by simp)⟩

/-- Claim C2: on a full input with scores in `[0,1]` and non-negative
weights summing to one, `aggregate` returns exactly the weighted sum
`Σ weight[c] * score[c]`; that value lies in `[0,1]`, the sum is linear in
each component score holding the others fixed (the change in output is the
component's weight times the change in score), and is monotone in each
component score. -/
theorem aggregate_weighted_sum (d c s r : ℚ) (w : Weights)
    (hd : 0 ≤ d ∧ d ≤ 1) (hc : 0 ≤ c ∧ c ≤ 1)
    (hs : 0 ≤ s ∧ s ≤ 1) (hr : 0 ≤ r ∧ r ≤ 1)
    (hw : ∀ comp, 0 ≤ w comp) (hsum : wsum w = 1) :
    aggregate (mkInput d c s r) w = Except.ok (overall w d c s r) ∧
    (0 ≤ overall w d c s r ∧ overall w d c s r ≤ 1) ∧
    (∀ x y : ℚ, overall w x c s r - overall w y c s r =
      w .domain_validation * (x - y)) ∧
    (∀ x y : ℚ, overall w d x s r - overall w d y s r =
      w .content_analysis * (x - y)) ∧
    (∀ x y : ℚ, overall w d c x r - overall w d c y r =
      w .sender_check * (x - y)) ∧
    (∀ x y : ℚ, overall w d c s x - overall w d c s y =
      w .rules_evaluation * (x - y)) ∧
    (∀ x y : ℚ, x ≤ y → overall w x c s r ≤ overall w y c s r) ∧
    (∀ x y : ℚ, x ≤ y → overall w d x s r ≤ overall w d y s r) ∧
    (∀ x y : ℚ, x ≤ y → overall w d c x r ≤ overall w d c y r) ∧
    (∀ x y : ℚ, x ≤ y → overall w d c s x ≤ overall w d c s y) := by
  have hwd := hw .domain_validation
  have hwc := hw .content_analysis
  have hws := hw .sender_check
  have hwr := hw .rules_evaluation
  have hsum4 : w .domain_validation + w .content_analysis +
      w .sender_check + w .rules_evaluation = 1 := hsum
  have hvalid : weightsValid w := by
    refine ⟨hwd, hwc, hws, hwr, ?_⟩
    rw [hsum]
    norm_num
  refine ⟨?_, ⟨?_, ?_⟩, ?_, ?_, ?_, ?_, ?_, ?_, ?_, ?_⟩
  · show (if (0 ≤ d ∧ d ≤ 1) ∧ (0 ≤ c ∧ c ≤ 1) ∧ (0 ≤ s ∧ s ≤ 1) ∧
        (0 ≤ r ∧ r ≤ 1) then
        if weightsValid w then Except.ok (overall w d c s r)
        else Except.error "ScoringError: invalid weights"
      else Except.error "ScoringError: component score out of range") =
      Except.ok (overall w d c s r)
    rw [if_pos ⟨hd, hc, hs, hr⟩, if_pos hvalid]
  · unfold overall
    have h1 := mul_nonneg hwd hd.1
    have h2 := mul_nonneg hwc hc.1
    have h3 := mul_nonneg hws hs.1
    have h4 := mul_nonneg hwr hr.1
    linarith
  · unfold overall
    have h1 := mul_le_of_le_one_right hwd hd.2
    have h2 := mul_le_of_le_one_right hwc hc.2
    have h3 := mul_le_of_le_one_right hws hs.2
    have h4 := mul_le_of_le_one_right hwr hr.2
    linarith
  · intro x y; unfold overall; ring
  · intro x y; unfold overall; ring
  · intro x y; unfold overall; ring
  · intro x y; unfold overall; ring
  · intro x y hxy; unfold overall
    have := mul_le_mul_of_nonneg_left hxy hwd
    linarith
  · intro x y hxy; unfold overall
    have := mul_le_mul_of_nonneg_left hxy hwc
    linarith
  · intro x y hxy; unfold overall
    have := mul_le_mul_of_nonneg_left hxy hws
    linarith
  · intro x y hxy; unfold overall
    have := mul_le_mul_of_nonneg_left hxy hwr
    linarith

/-- Witness for claim C2: the spec's end-to-end example — scores
0.9/0.8/0.7/0.6 under the default 0.30/0.35/0.25/0.10 weights aggregate
to exactly 0.785. -/
theorem aggregate_weighted_sum_witness :
    aggregate (mkInput (9/10) (8/10) (7/10) (6/10)) defaultWeight =
      Except.ok (785/1000) := by
  have h := aggregate_weighted_sum (9/10) (8/10) (7/10) (6/10) defaultWeight
    (by norm_num) (by norm_num) (by norm_num) (by norm_num)
    (by intro comp; cases comp <;> norm_num [defaultWeight])
    (by unfold wsum defaultWeight; norm_num)
  rw [h.1]
  unfold overall defaultWeight
  norm_num

/-- Claim C5: `aggregate` fails with a scoring error exactly when some
required component is absent, some present component score lies outside
`[0,1]`, or the weights violate the `ScoringWeights` invariant
(non-negative, summing to one within 1e-6); in particular a missing
component always yields an error, never a default. -/
theorem aggregate_error_iff (input : ValidationInput) (w : Weights) :
    (∃ m, aggregate input w = Except.error m) ↔
      ((∃ comp, input comp = Option.none) ∨
        (∃ comp x, input comp = some x ∧ (x < 0 ∨ 1 < x)) ∨
        ¬weightsValid w) := by
  rcases hdv : input .domain_validation with _ | d
  · constructor
    · intro _; exact Or.inl ⟨.domain_validation, hdv⟩
    · intro _
      refine ⟨"ScoringError: missing required component", ?_⟩
      unfold aggregate
      rw [hdv]
  · rcases hca : input .content_analysis with _ | c
    · constructor
      · intro _; exact Or.inl ⟨.content_analysis, hca⟩
      · intro _
        refine ⟨"ScoringError: missing required component", ?_⟩
        unfold aggregate
        rw [hdv, hca]
    · rcases hsc : input .sender_check with _ | s
      · constructor
        · intro _; exact Or.inl ⟨.sender_check, hsc⟩
        · intro _
          refine ⟨"ScoringError: missing required component", ?_⟩
          unfold aggregate
          rw [hdv, hca, hsc]
      · rcases hre : input .rules_evaluation with _ | r
        · constructor
          · intro _; exact Or.inl ⟨.rules_evaluation, hre⟩
          · intro _
            refine ⟨"ScoringError: missing required component", ?_⟩
            unfold aggregate
            rw [hdv, hca, hsc, hre]
        · have hagg : aggregate input w =
              if (0 ≤ d ∧ d ≤ 1) ∧ (0 ≤ c ∧ c ≤ 1) ∧ (0 ≤ s ∧ s ≤ 1) ∧
                  (0 ≤ r ∧ r ≤ 1) then
                if weightsValid w then Except.ok (overall w d c s r)
                else Except.error "ScoringError: invalid weights"
              else
                Except.error "ScoringError: component score out of range" := by
            unfold aggregate
            rw [hdv, hca, hsc, hre]
          have hnomiss : ¬∃ comp, input comp = Option.none := by
            rintro ⟨comp, hcomp⟩
            cases comp <;> simp_all
          have hrange : (∃ comp x, input comp = some x ∧ (x < 0 ∨ 1 < x)) ↔
              ¬((0 ≤ d ∧ d ≤ 1) ∧ (0 ≤ c ∧ c ≤ 1) ∧ (0 ≤ s ∧ s ≤ 1) ∧
                (0 ≤ r ∧ r ≤ 1)) := by
            constructor
            · rintro ⟨comp, x, hcomp, hout⟩ hin
              cases comp <;>
                (first
                  | (rw [hdv] at hcomp) | (rw [hca] at hcomp)
                  | (rw [hsc] at hcomp) | (rw [hre] at hcomp)) <;>
                (injection hcomp with hx; subst hx) <;>
                rcases hout with hout | hout <;>
                [linarith [hin.1.1]; linarith [hin.1.2];
                  linarith [hin.2.1.1]; linarith [hin.2.1.2];
                  linarith [hin.2.2.1.1]; linarith [hin.2.2.1.2];
                  linarith [hin.2.2.2.1]; linarith [hin.2.2.2.2]]
            · intro hnin
              by_cases h1 : 0 ≤ d ∧ d ≤ 1
              · by_cases h2 : 0 ≤ c ∧ c ≤ 1
                · by_cases h3 : 0 ≤ s ∧ s ≤ 1
                  · by_cases h4 : 0 ≤ r ∧ r ≤ 1
                    · exact absurd ⟨h1, h2, h3, h4⟩ hnin
                    · rcases (not_and_or.mp h4) with h | h
                      · exact ⟨.rules_evaluation, r, hre,
                          Or.inl (lt_of_not_le h)⟩
                      · exact ⟨.rules_evaluation, r, hre,
                          Or.inr (lt_of_not_le h)⟩
                  · rcases (not_and_or.mp h3) with h | h
                    · exact ⟨.sender_check, s, hsc, Or.inl (lt_of_not_le h)⟩
                    · exact ⟨.sender_check, s, hsc, Or.inr (lt_of_not_le h)⟩
                · rcases (not_and_or.mp h2) with h | h
                  · exact ⟨.content_analysis, c, hca, Or.inl (lt_of_not_le h)⟩
                  · exact ⟨.content_analysis, c, hca, Or.inr (lt_of_not_le h)⟩
              · rcases (not_and_or.mp h1) with h | h
                · exact ⟨.domain_validation, d, hdv, Or.inl (lt_of_not_le h)⟩
                · exact ⟨.domain_validation, d, hdv, Or.inr (lt_of_not_le h)⟩
          by_cases hin : (0 ≤ d ∧ d ≤ 1) ∧ (0 ≤ c ∧ c ≤ 1) ∧
              (0 ≤ s ∧ s ≤ 1) ∧ (0 ≤ r ∧ r ≤ 1)
          · rw [if_pos hin] at hagg
            by_cases hv : weightsValid w
            · rw [if_pos hv] at hagg
              constructor
              · rintro ⟨m, hm⟩
                rw [hagg] at hm
                cases hm
              · rintro (hmiss | hout | hnv)
                · exact absurd hmiss hnomiss
                · exact absurd hin (hrange.mp hout)
                · exact absurd hv hnv
            · rw [if_neg hv] at hagg
              constructor
              · intro _; exact Or.inr (Or.inr hv)
              · intro _; exact ⟨_, hagg⟩
          · rw [if_neg hin] at hagg
            constructor
            · intro _; exact Or.inr (Or.inl (hrange.mpr hin))
            · intro _; exact ⟨_, hagg⟩

/-- Witness for claim C5: an input missing the rules_evaluation component
produces a scoring error even under valid weights. -/
theorem aggregate_error_iff_witness :
    ∃ m, aggregate (fun comp => match comp with
      | ValidationComponent.rules_evaluation => Option.none
      | _ => some (1/2)) defaultWeight = Except.error m := by
  refine (aggregate_error_iff _ defaultWeight).mpr ?_
  exact Or.inl ⟨.rules_evaluation, rfl⟩

/-- `find?` returns `some a` exactly when the list splits as a block of
non-matching elements, then `a` matching. -/
theorem find?_eq_some_split {α : Type} (p : α → Bool) (l : List α) (a : α) :
    l.find? p = some a ↔
      p a = true ∧ ∃ l₁ l₂, l = l₁ ++ a :: l₂ ∧ ∀ x ∈ l₁, p x = false := by
  induction l with
  | nil => simp
  | cons b t ih =>
    by_cases hb : p b = true
    · rw [List.find?_cons_of_pos _ hb]
      constructor
      · rintro h
        injection h with h
        subst h
        exact ⟨hb, [], t, rfl, by simp⟩
      · rintro ⟨hpa, l₁, l₂, hsplit, hblock⟩
        cases l₁ with
        | nil =>
          injection hsplit with h1 _
          rw [h1]
        | cons y ys =>
          injection hsplit with h1 _
          subst h1
          exact absurd hb (by simp [hblock b (by simp)])
    · rw [List.find?_cons_of_neg _ hb, ih]
      constructor
      · rintro ⟨hpa, l₁, l₂, hsplit, hblock⟩
        refine ⟨hpa, b :: l₁, l₂, by rw [hsplit, List.cons_append], ?_⟩
        intro x hx
        rcases List.mem_cons.mp hx with rfl | hx
        · exact eq_false_of_ne_true hb
        · exact hblock x hx
      · rintro ⟨hpa, l₁, l₂, hsplit, hblock⟩
        cases l₁ with
        | nil =>
          injection hsplit with h1 _
          subst h1
          exact absurd hpa hb
        | cons y ys =>
          injection hsplit with h1 h2
          subst h1
          exact ⟨hpa, ys, l₂, h2, fun x hx => hblock x (by simp [hx])⟩

/-- Claim C3: the policy evaluator considers exactly the enabled policies,
in ascending `(priority, rule_id)` order (strictly ascending when rule_ids
are unique); it returns the first matching policy's outcome — every
earlier policy in the order fails to match — and `none` when no enabled
policy matches; with two enabled matching policies of priorities
`p.priority < q.priority`, only `p`'s action is applied, in either input
order. -/
theorem policy_first_match_wins (p q : Policy) (cand : Candidate)
    (hp : p.enabled = true) (hq : q.enabled = true)
    (hpq : p.priority < q.priority)
    (hpc : p.condition cand = true) (hqc : q.condition cand = true) :
    (∀ ps : List Policy,
      List.Sorted policyLe (evaluationOrder ps) ∧
      List.Perm (evaluationOrder ps) (ps.filter (fun x => x.enabled)) ∧
      (((ps.filter (fun x => x.enabled)).map (fun x => x.rule_id)).Nodup →
        List.Sorted policyLt (evaluationOrder ps))) ∧
    (∀ (ps : List Policy) (c : Candidate) (o : PolicyOutcome),
      evaluate ps c = some o ↔
        ∃ pol l₁ l₂, evaluationOrder ps = l₁ ++ pol :: l₂ ∧
          (∀ x ∈ l₁, x.condition c = false) ∧
          pol.condition c = true ∧ o = outcomeOf pol) ∧
    (∀ (ps : List Policy) (c : Candidate),
      (∀ x ∈ ps, x.enabled = true → x.condition c = false) →
        evaluate ps c = none) ∧
    evaluate [p, q] cand = some (outcomeOf p) ∧
    evaluate [q, p] cand = some (outcomeOf p) := by
  have hple : policyLe p q := Or.inl hpq
  have hnqp : ¬policyLe q p := by
    rintro (h | ⟨h, _⟩)
    · exact absurd hpq (lt_asymm h)
    · exact absurd h (ne_of_gt hpq)
  refine ⟨?_, ?_, ?_, ?_, ?_⟩
  · intro ps
    refine ⟨List.sorted_insertionSort policyLe _, List.perm_insertionSort policyLe _, ?_⟩
    intro hnd
    have hnd2 : ((evaluationOrder ps).map (fun x => x.rule_id)).Nodup :=
      ((List.perm_insertionSort policyLe _).map (fun x => x.rule_id)).nodup_iff.mpr hnd
    rw [List.Nodup, List.pairwise_map] at hnd2
    have hsorted : List.Pairwise policyLe (evaluationOrder ps) :=
      List.sorted_insertionSort policyLe _
    refine (hsorted.and hnd2).imp ?_
    rintro a b ⟨hle, hne⟩
    rcases hle with h | ⟨h, hr⟩
    · exact Or.inl h
    · exact Or.inr ⟨h, lt_of_le_of_ne hr hne⟩
  · intro ps c o
    unfold evaluate
    rw [Option.map_eq_some']
    constructor
    · rintro ⟨pol, hfind, rfl⟩
      obtain ⟨hcond, l₁, l₂, hsplit, hblock⟩ :=
        (find?_eq_some_split _ _ _).mp hfind
      exact ⟨pol, l₁, l₂, hsplit, hblock, hcond, rfl⟩
    · rintro ⟨pol, l₁, l₂, hsplit, hblock, hcond, rfl⟩
      exact ⟨pol, (find?_eq_some_split _ _ _).mpr
        ⟨hcond, l₁, l₂, hsplit, hblock⟩, rfl⟩
  · intro ps c hnone
    unfold evaluate
    rw [Option.map_eq_none', List.find?_eq_none]
    intro x hx
    have hx2 : x ∈ ps.filter (fun y => y.enabled) :=
      (List.perm_insertionSort policyLe _).mem_iff.mp hx
    obtain ⟨hxps, hxen⟩ := List.mem_filter.mp hx2
    simp [hnone x hxps hxen]
  · show ((evaluationOrder [p, q]).find? (fun x => x.condition cand)).map
      outcomeOf = some (outcomeOf p)
    have horder : evaluationOrder [p, q] = [p, q] := by
      unfold evaluationOrder
      rw [show List.filter (fun x => x.enabled) [p, q] = [p, q] by
        simp [List.filter, hp, hq]]
      show List.orderedInsert policyLe p
        (List.orderedInsert policyLe q []) = [p, q]
      rw [List.orderedInsert_nil, List.orderedInsert_of_le _ _ hple]
    rw [horder]
    simp only [List.find?, hpc, Option.map_some']
  · show ((evaluationOrder [q, p]).find? (fun x => x.condition cand)).map
      outcomeOf = some (outcomeOf p)
    have horder : evaluationOrder [q, p] = [p, q] := by
      unfold evaluationOrder
      rw [show List.filter (fun x => x.enabled) [q, p] = [q, p] by
        simp [List.filter, hp, hq]]
      show List.orderedInsert policyLe q
        (List.orderedInsert policyLe p []) = [p, q]
      rw [List.orderedInsert_nil]
      show (if policyLe q p then q :: [p] else
        p :: List.orderedInsert policyLe q []) = [p, q]
      rw [if_neg hnqp, List.orderedInsert_nil]
    rw [horder]
    simp only [List.find?, hpc, Option.map_some']

/-- Witness for claim C3: two always-matching enabled policies with
priorities 1 and 2; only the priority-1 policy's outcome is returned, in
either input order. -/
theorem policy_first_match_wins_witness :
    evaluate
      [⟨"r1", "first", 1, fun _ => true, PolicyAction.release, "d1", true⟩,
       ⟨"r2", "second", 2, fun _ => true, PolicyAction.escalate, "d2", true⟩]
      ⟨"a@b.com", "subj", "body", [], 0, 0⟩ =
        some ⟨"r1", PolicyAction.release, "d1"⟩ ∧
    evaluate
      [⟨"r2", "second", 2, fun _ => true, PolicyAction.escalate, "d2", true⟩,
       ⟨"r1", "first", 1, fun _ => true, PolicyAction.release, "d1", true⟩]
      ⟨"a@b.com", "subj", "body", [], 0, 0⟩ =
        some ⟨"r1", PolicyAction.release, "d1"⟩ := by
  have h := policy_first_match_wins
    ⟨"r1", "first", 1, fun _ => true, PolicyAction.release, "d1", true⟩
    ⟨"r2", "second", 2, fun _ => true, PolicyAction.escalate, "d2", true⟩
    ⟨"a@b.com", "subj", "body", [], 0, 0⟩
    rfl rfl (by norm_num) rfl rfl
  exact ⟨h.2.2.2.1, h.2.2.2.2⟩

/-- Claim C8: in every reachable state of the list store, the
`(entry_type, value)` keys are unique within the whitelist table and,
independently, within the blacklist table — the `uq_whitelist_type_value`
and `uq_blacklist_type_value` constraints — while the same key may appear
in both tables at once, witnessed by a reachable state containing a key
in both. -/
theorem list_store_unique_keys :
    (∀ s : ListStore, StoreReachable s →
      (s.whitelists.map entryKey).Nodup ∧
      (s.blacklists.map entryKey).Nodup) ∧
    (∃ s : ListStore, StoreReachable s ∧ ∃ k,
      k ∈ s.whitelists.map entryKey ∧ k ∈ s.blacklists.map entryKey) := by
  constructor
  · intro s hreach
    induction hreach with
    | init => exact ⟨List.nodup_nil, List.nodup_nil⟩
    | step hr hstep ih =>
      cases hstep with
      | addWhite e h =>
        exact ⟨List.nodup_cons.mpr ⟨h, ih.1⟩, ih.2⟩
      | addBlack e h =>
        exact ⟨ih.1, List.nodup_cons.mpr ⟨h, ih.2⟩⟩
      | removeWhite k =>
        exact ⟨ih.1.sublist ((List.filter_sublist _).map entryKey), ih.2⟩
      | removeBlack k =>
        exact ⟨ih.1, ih.2.sublist ((List.filter_sublist _).map entryKey)⟩
  · refine ⟨⟨[⟨WhitelistType.email, "a@b.com", "admin", "test"⟩],
      [⟨WhitelistType.email, "a@b.com", "admin", "test"⟩]⟩, ?_,
      (WhitelistType.email, "a@b.com"), by simp [entryKey], by simp [entryKey]⟩
    have h1 : StoreReachable ⟨[⟨WhitelistType.email, "a@b.com", "admin",
        "test"⟩], []⟩ :=
      StoreReachable.step StoreReachable.init
        (StoreStep.addWhite ⟨[], []⟩ _ (by simp))
    exact StoreReachable.step h1 (StoreStep.addBlack
      ⟨[⟨WhitelistType.email, "a@b.com", "admin", "test"⟩], []⟩ _ (by simp))

/-- Witness for claim C8: the uniqueness invariant instantiated at the
concrete reachable store holding the same entry in both tables. -/
theorem list_store_unique_keys_witness :
    ((⟨[⟨WhitelistType.email, "a@b.com", "admin", "test"⟩],
        [⟨WhitelistType.email, "a@b.com", "admin", "test"⟩]⟩ :
      ListStore).whitelists.map entryKey).Nodup ∧
    ((⟨[⟨WhitelistType.email, "a@b.com", "admin", "test"⟩],
        [⟨WhitelistType.email, "a@b.com", "admin", "test"⟩]⟩ :
      ListStore).blacklists.map entryKey).Nodup := by
  refine list_store_unique_keys.1 _ ?_
  have h1 : StoreReachable ⟨[⟨WhitelistType.email, "a@b.com", "admin",
      "test"⟩], []⟩ :=
    StoreReachable.step StoreReachable.init
      (StoreStep.addWhite ⟨[], []⟩ _ (by simp))
  exact StoreReachable.step h1 (StoreStep.addBlack
    ⟨[⟨WhitelistType.email, "a@b.com", "admin", "test"⟩], []⟩ _ (by simp))

/-- `leadsWith` decides the prefix relation on character lists. -/
theorem leadsWith_iff (sub l : List Char) :
    leadsWith sub l = true ↔ sub <+: l := by
  induction sub generalizing l with
  | nil => simpa [leadsWith] using List.nil_prefix
  | cons a s ih =>
    cases l with
    | nil => simp [leadsWith]
    | cons b t =>
      rw [List.cons_prefix_cons]
      simp [leadsWith, ih, And.comm]

/-- `hasSub` decides the contiguous-substring relation on character
lists. -/
theorem hasSub_iff (sub l : List Char) :
    hasSub sub l = true ↔ sub <:+: l := by
  induction l with
  | nil =>
    simp [hasSub, leadsWith_iff]
  | cons b t ih =>
    rw [show hasSub sub (b :: t) = (leadsWith sub (b :: t) || hasSub sub t)
      from rfl]
    rw [List.infix_cons_iff, Bool.or_eq_true, leadsWith_iff, ih]

/-- Claim C9: the log-censoring processor keeps every key in place and,
position by position, replaces the value of a key exactly when some
sensitive substring (password, api_key, token, secret, auth) occurs in
the key's lowercased name — the replacement being the literal
`"***REDACTED***"` — and leaves every other entry entirely unchanged. -/
theorem censor_sensitive_data_spec (d : List (String × String)) (i : ℕ)
    (hi : i < d.length) :
    (censor_sensitive_data d).length = d.length ∧
    ∀ hi2 : i < (censor_sensitive_data d).length,
      ((censor_sensitive_data d).get ⟨i, hi2⟩).1 = (d.get ⟨i, hi⟩).1 ∧
      ((∃ s ∈ sensitive_keys,
          s.data <:+: (strToLower (d.get ⟨i, hi⟩).1).data) →
        ((censor_sensitive_data d).get ⟨i, hi2⟩).2 = "***REDACTED***") ∧
      ((¬∃ s ∈ sensitive_keys,
          s.data <:+: (strToLower (d.get ⟨i, hi⟩).1).data) →
        (censor_sensitive_data d).get ⟨i, hi2⟩ = d.get ⟨i, hi⟩) := by
  have hsens : ∀ k : String, isSensitiveKey k = true ↔
      ∃ s ∈ sensitive_keys, s.data <:+: (strToLower k).data := by
    intro k
    unfold isSensitiveKey
    rw [List.any_eq_true]
    constructor
    · rintro ⟨s, hs, hsub⟩
      exact ⟨s, hs, (hasSub_iff _ _).mp hsub⟩
    · rintro ⟨s, hs, hsub⟩
      exact ⟨s, hs, (hasSub_iff _ _).mpr hsub⟩
  constructor
  · unfold censor_sensitive_data
    exact List.length_map _ _
  · intro hi2
    have hget : (censor_sensitive_data d).get ⟨i, hi2⟩ =
        (fun kv => if isSensitiveKey kv.1 then (kv.1, "***REDACTED***")
          else kv) (d.get ⟨i, hi⟩) := by
      unfold censor_sensitive_data
      exact List.get_map _
    have hbeta : (fun kv : String × String =>
        if isSensitiveKey kv.1 then (kv.1, "***REDACTED***") else kv)
          (d.get ⟨i, hi⟩) =
        if isSensitiveKey (d.get ⟨i, hi⟩).1 then
          ((d.get ⟨i, hi⟩).1, "***REDACTED***")
        else d.get ⟨i, hi⟩ := rfl
    rw [hbeta] at hget
    by_cases hk : isSensitiveKey (d.get ⟨i, hi⟩).1 = true
    · rw [if_pos hk] at hget
      rw [hget]
      exact ⟨rfl, fun _ => rfl, fun hn => absurd ((hsens _).mp hk) hn⟩
    · rw [if_neg hk] at hget
      rw [hget]
      exact ⟨rfl, fun hex => absurd ((hsens _).mpr hex) hk, fun _ => rfl⟩

/-- Witness for claim C9: in a two-entry event dict, the `user_api_key`
entry is redacted. -/
theorem censor_sensitive_data_spec_witness :
    ∃ hh : 0 < (censor_sensitive_data
        [("user_api_key", "abc"), ("msg", "hi")]).length,
      ((censor_sensitive_data
        [("user_api_key", "abc"), ("msg", "hi")]).get ⟨0, hh⟩).2 =
        "***REDACTED***" := by
  have h := censor_sensitive_data_spec
    [("user_api_key", "abc"), ("msg", "hi")] 0 (by decide)
  have hh : 0 < (censor_sensitive_data
      [("user_api_key", "abc"), ("msg", "hi")]).length := by
    rw [h.1]; decide
  refine ⟨hh, (h.2 hh).2.1 ?_⟩
  exact ⟨"api_key", by decide, by decide⟩

/-- `pySplit` always yields at least one piece. -/
theorem pySplit_ne_nil (sep : Char) (l : List Char) : pySplit sep l ≠ [] := by
  cases l with
  | nil => simp [pySplit]
  | cons c t =>
    unfold pySplit
    rcases h : pySplit sep t with _ | ⟨cur, rest⟩
    · simp
    · show (if c = sep then [] :: cur :: rest else (c :: cur) :: rest) ≠ []
      by_cases hc : c = sep
      · rw [if_pos hc]; simp
      · rw [if_neg hc]; simp

/-- Prepending a character to the first piece prepends it to the join. -/
theorem joinSep_cons_cons (sep c : Char) (x : List Char)
    (ys : List (List Char)) :
    joinSep sep ((c :: x) :: ys) = c :: joinSep sep (x :: ys) := by
  cases ys with
  | nil => rfl
  | cons y r => rfl

/-- Rejoining the pieces of `pySplit` with the separator restores the
original string: the pieces are exactly the separator-delimited entries. -/
theorem joinSep_pySplit (sep : Char) (l : List Char) :
    joinSep sep (pySplit sep l) = l := by
  induction l with
  | nil => rfl
  | cons c t ih =>
    unfold pySplit
    rcases h : pySplit sep t with _ | ⟨cur, rest⟩
    · exact absurd h (pySplit_ne_nil sep t)
    · rw [h] at ih
      show joinSep sep
        (if c = sep then [] :: cur :: rest else (c :: cur) :: rest) = c :: t
      by_cases hc : c = sep
      · rw [if_pos hc]
        rw [show joinSep sep ([] :: cur :: rest) =
          [] ++ sep :: joinSep sep (cur :: rest) from rfl]
        rw [List.nil_append, ih, hc]
      · rw [if_neg hc]
        rw [joinSep_cons_cons, ih]

/-- The head surviving `dropWhile` fails the predicate. -/
theorem head?_dropWhile (p : Char → Bool) (l : List Char) (a : Char)
    (h : (l.dropWhile p).head? = some a) : p a = false := by
  induction l with
  | nil => simp at h
  | cons c t ih =>
    rw [List.dropWhile_cons] at h
    by_cases hc : p c = true
    · rw [if_pos hc] at h; exact ih h
    · rw [if_neg hc] at h
      simp at h
      rw [← h]
      exact Bool.not_eq_true _ |>.mp hc

/-- The last character surviving `stripEnd` is not whitespace. -/
theorem getLast?_stripEnd (l : List Char) (ch : Char)
    (h : (stripEnd l).getLast? = some ch) : ch.isWhitespace = false := by
  induction l with
  | nil => simp [stripEnd] at h
  | cons c t ih =>
    unfold stripEnd at h
    rcases hst : stripEnd t with _ | ⟨x, r⟩
    · rw [hst] at h
      by_cases hc : c.isWhitespace
      · simp [hc] at h
      · simp only [if_neg hc] at h
        simp at h
        subst h
        exact Bool.not_eq_true _ |>.mp hc
    · rw [hst] at h
      rw [List.getLast?_cons_cons] at h
      rw [← hst] at h
      exact ih h

/-- `dropWhile` keeps the last element of a list it does not empty. -/
theorem getLast?_dropWhile (p : Char → Bool) (l : List Char)
    (hne : l.dropWhile p ≠ []) : (l.dropWhile p).getLast? = l.getLast? := by
  induction l with
  | nil => simp at hne
  | cons c t ih =>
    rw [List.dropWhile_cons] at hne ⊢
    by_cases hc : p c = true
    · rw [if_pos hc] at hne ⊢
      have ht : t ≠ [] := by
        intro he; rw [he] at hne; simp at hne
      rw [ih hne]
      cases t with
      | nil => exact absurd rfl ht
      | cons y ys => rw [List.getLast?_cons_cons]
    · rw [if_neg hc]

/-- Claim C10: `allowed_ip_list` maps the empty configured string to the
empty list; on a non-empty string it returns exactly the comma-separated
entries — rejoining the split pieces with commas restores the string —
each with surrounding whitespace stripped, so no returned entry starts or
ends with whitespace; the embedding is a total function, so no input
raises. -/
theorem allowed_ip_list_spec :
    allowed_ip_list "" = [] ∧
    (∀ s : String, joinSep ',' (pySplit ',' s.data) = s.data) ∧
    (∀ s : String, s ≠ "" →
      allowed_ip_list s = (pySplit ',' s.data).map (fun l => ⟨pyStrip l⟩)) ∧
    (∀ s e : String, e ∈ allowed_ip_list s →
      (∀ ch, e.data.head? = some ch → ch.isWhitespace = false) ∧
      (∀ ch, e.data.getLast? = some ch → ch.isWhitespace = false)) := by
  refine ⟨rfl, fun s => joinSep_pySplit ',' s.data, ?_, ?_⟩
  · intro s hs
    unfold allowed_ip_list
    rw [if_neg hs]
  · intro s e he
    unfold allowed_ip_list at he
    by_cases hs : s = ""
    · rw [if_pos hs] at he
      exact absurd he (List.not_mem_nil e)
    · rw [if_neg hs] at he
      obtain ⟨l, _, hl⟩ := List.mem_map.mp he
      have hdata : e.data = pyStrip l := by rw [← hl]
      constructor
      · intro ch hch
        rw [hdata] at hch
        exact head?_dropWhile _ _ _ hch
      · intro ch hch
        rw [hdata] at hch
        unfold pyStrip at hch
        have hne : (stripEnd l).dropWhile Char.isWhitespace ≠ [] := by
          intro hemp
          rw [hemp] at hch
          exact Option.noConfusion hch
        rw [getLast?_dropWhile _ _ hne] at hch
        exact getLast?_stripEnd _ _ hch

/-- Witness for claim C10: splitting `" a ,b"` yields the stripped
entries `"a"` and `"b"`, and the entry `"a"` carries no surrounding
whitespace. -/
theorem allowed_ip_list_spec_witness :
    allowed_ip_list "" = [] ∧
    allowed_ip_list " a ,b" = ["a", "b"] ∧
    (∀ ch, ("a" : String).data.head? = some ch →
      ch.isWhitespace = false) := by
  refine ⟨allowed_ip_list_spec.1, by decide, ?_⟩
  have hm : ("a" : String) ∈ allowed_ip_list " a ,b" := by decide
  exact (allowed_ip_list_spec.2.2.2 " a ,b" "a" hm).1

end L1
